import Mathlib

/-!
Verification of the `pitcher` DSP pipeline (files `pitcher/core.py` and
`pitcher.py`) against its natural-language specification.

Audio buffers are modelled as `List ℚ` (exact rational samples in place of
IEEE floats), numpy arrays of indices as `List ℤ`/`List ℕ`, and numpy's
half-to-even rounding (`np.round`) as `npRound`.  External DSP collaborators
(scipy filters, librosa time-stretch, the Moog filter) are kept abstract:
only their length/contract-level behaviour, as used by the claims, is
modelled, and each such modelling choice is documented at the definition.
-/

/-- Model of `np.round` on an exact rational: round half to even
(banker's rounding), the IEEE-754 default used by numpy. -/
def npRound (q : ℚ) : ℤ :=
  if q - ⌊q⌋ < 1 / 2 then ⌊q⌋
  else if 1 / 2 < q - ⌊q⌋ then ⌊q⌋ + 1
  else if ⌊q⌋ % 2 = 0 then ⌊q⌋ else ⌊q⌋ + 1

theorem npRound_eq_floor_or_succ (q : ℚ) : npRound q = ⌊q⌋ ∨ npRound q = ⌊q⌋ + 1 := by
  unfold npRound
  by_cases h1 : q - ⌊q⌋ < 1 / 2
  · rw [if_pos h1]
    exact Or.inl rfl
  · rw [if_neg h1]
    by_cases h2 : 1 / 2 < q - ⌊q⌋
    · rw [if_pos h2]
      exact Or.inr rfl
    · rw [if_neg h2]
      by_cases h3 : ⌊q⌋ % 2 = 0
      · rw [if_pos h3]
        exact Or.inl rfl
      · rw [if_neg h3]
        exact Or.inr rfl

theorem npRound_nonneg (q : ℚ) (h : 0 ≤ q) : 0 ≤ npRound q := by
  have hfl : (0 : ℤ) ≤ ⌊q⌋ := Int.floor_nonneg.mpr h
  rcases npRound_eq_floor_or_succ q with h' | h' <;> omega

theorem npRound_le_of_le_int (q : ℚ) (m : ℤ) (h : q ≤ (m : ℚ)) : npRound q ≤ m := by
  have hfl : ⌊q⌋ ≤ m := by
    have h' := Int.floor_le_floor h
    rwa [Int.floor_intCast] at h'
  by_cases hc : ⌊q⌋ = m
  · have hfr : q - (⌊q⌋ : ℚ) < 1 / 2 := by
      have hm : ((⌊q⌋ : ℤ) : ℚ) = (m : ℚ) := by exact_mod_cast hc
      linarith
    unfold npRound
    rw [if_pos hfr]
    exact hfl
  · rcases npRound_eq_floor_or_succ q with h' | h' <;> omega

/-- `POSITIVE_TUNING_RATIO` from `core.py` (the constant multiplicative
pitch-up step), as an exact rational. -/
def positiveTuningRatio : ℚ := 1.02930223664

/-- `NEGATIVE_TUNING_RATIOS` from `core.py`: the tabulated ratios for
semitone offsets -1 .. -8.  Keys outside that range are never read by
`adjust_pitch` (a Python dict lookup there would raise `KeyError`); the
catch-all 0 is unreachable from the embedded callers. -/
def negativeTuningRatios (st : ℤ) : ℚ :=
  if st = -1 then 1.05652677103003
  else if st = -2 then 1.1215356033380033
  else if st = -3 then 1.1834835840896631
  else if st = -4 then 1.253228360845465
  else if st = -5 then 1.3310440397149297
  else if st = -6 then 1.4039714929646099
  else if st = -7 then 1.5028019735639886
  else if st = -8 then 1.5766735700797954
  else 0

/-- The `interp1d(..., fill_value='extrapolate')` branch of `adjust_pitch`
for `st < -8`: scipy's linear interpolant sorts the tabulated points by
offset and extrapolates below the range using the segment between the two
lowest tabulated offsets (-8 and -7). -/
def extrapolatedRatio (st : ℤ) : ℚ :=
  negativeTuningRatios (-8) +
    ((st : ℚ) + 8) * (negativeTuningRatios (-7) - negativeTuningRatios (-8))

/-- The time-scaling ratio `t` computed by `adjust_pitch` (`core.py` lines
90-104) / `manual_pitch` (`pitcher.py` lines 45-55), as a function of the
semitone offset.  The guards are mutually exclusive, so the branch order
matches the source. -/
def tuningRatio (st : ℤ) : ℚ :=
  if 0 > st ∧ st ≥ -8 then negativeTuningRatios st
  else if st > 0 then positiveTuningRatio ^ (-st)
  else if st = 0 then 1
  else extrapolatedRatio st

theorem tuningRatio_pos (st : ℤ) : 0 < tuningRatio st := by
  unfold tuningRatio
  split
  next h =>
    have h1 : -8 ≤ st := h.2
    have h2 : st ≤ -1 := by omega
    interval_cases st <;> norm_num [negativeTuningRatios]
  next h1 =>
    split
    next => exact zpow_pos (by norm_num [positiveTuningRatio]) _
    next h2 =>
      split
      next => norm_num
      next h3 =>
        have hst : st ≤ -9 := by omega
        have hs : ((st : ℚ) + 8) ≤ -1 := by
          have hc : (st : ℚ) ≤ -9 := by exact_mod_cast hst
          linarith
        have h7 : negativeTuningRatios (-7) = 1.5028019735639886 := by
          norm_num [negativeTuningRatios]
        have h8 : negativeTuningRatios (-8) = 1.5766735700797954 := by
          norm_num [negativeTuningRatios]
        have key : (-1 : ℚ) * (negativeTuningRatios (-7) - negativeTuningRatios (-8)) ≤
            ((st : ℚ) + 8) * (negativeTuningRatios (-7) - negativeTuningRatios (-8)) :=
          mul_le_mul_of_nonpos_right hs (by rw [h7, h8]; norm_num)
        unfold extrapolatedRatio
        rw [h7, h8] at key ⊢
        nlinarith [key]

/-- The value at position `e` of `np.linspace(0, L-1, n)` (`core.py` line
107), in exact arithmetic: for `n ≥ 2` the points are `e * (L-1) / (n-1)`;
`np.linspace(0, L-1, 1)` is the single point `[0.]`, and for `n ≤ 1` no
position `e < n - 1` is ever read. -/
def linspaceVal (L : ℕ) (n : ℤ) (e : ℕ) : ℚ :=
  if 2 ≤ n then (e : ℚ) * ((L : ℚ) - 1) / ((n : ℚ) - 1) else 0

/-- The rounded nearest-neighbour indices `r[0], …, r[n-2]` actually read by
the list comprehension in `adjust_pitch` (`core.py` lines 106-108):
`n = int(np.round(len(x) * t))`, `r = np.linspace(0, len(x)-1, n).round()`,
and the comprehension runs over `range(n-1)`.  For `st = 0` the function
returns early and reads no index. -/
def pitchIndices (L : ℕ) (st : ℤ) : List ℤ :=
  if st = 0 then []
  else
    (List.range (npRound ((L : ℚ) * tuningRatio st) - 1).toNat).map fun e =>
      npRound (linspaceVal L (npRound ((L : ℚ) * tuningRatio st)) e)

/-- `adjust_pitch` from `core.py` lines 87-112 (identically `manual_pitch`,
`pitcher.py` lines 44-60): for `st = 0` return the input unchanged, otherwise
build the output by nearest-neighbour lookup at the rounded linspace indices.
`x[r[e]]` is modelled with `getD _ 0`; the bounds theorem below shows the
default is never consulted for non-empty input. -/
def adjust_pitch (x : List ℚ) (st : ℤ) : List ℚ :=
  if st = 0 then x
  else (pitchIndices x.length st).map fun i => x.getD i.toNat 0

theorem pitchIndices_mem_bounds (L : ℕ) (st : ℤ) (hL : 1 ≤ L) :
    ∀ i ∈ pitchIndices L st, 0 ≤ i ∧ i.toNat < L := by
  intro i hi
  unfold pitchIndices at hi
  by_cases h0 : st = 0
  · rw [if_pos h0] at hi
    simp at hi
  · rw [if_neg h0] at hi
    rcases List.mem_map.mp hi with ⟨e, he, rfl⟩
    rw [List.mem_range] at he
    set n : ℤ := npRound ((L : ℚ) * tuningRatio st) with hn
    have hn2 : 2 ≤ n := by omega
    have hv : linspaceVal L n e = (e : ℚ) * ((L : ℚ) - 1) / ((n : ℚ) - 1) := by
      unfold linspaceVal
      rw [if_pos hn2]
    have hL1 : (1 : ℚ) ≤ (L : ℚ) := by exact_mod_cast hL
    have hnq : (1 : ℚ) ≤ (n : ℚ) - 1 := by
      have h2q : (2 : ℚ) ≤ (n : ℚ) := by exact_mod_cast hn2
      linarith
    have he2 : (e : ℤ) ≤ n - 2 := by omega
    have he3 : (e : ℚ) ≤ (n : ℚ) - 2 := by exact_mod_cast he2
    have v0 : 0 ≤ linspaceVal L n e := by
      rw [hv]
      apply div_nonneg
      · apply mul_nonneg (by positivity)
        linarith
      · linarith
    have v1 : linspaceVal L n e ≤ ((L : ℤ) - 1 : ℤ) := by
      push_cast
      rw [hv, div_le_iff₀ (by linarith : (0 : ℚ) < (n : ℚ) - 1)]
      nlinarith [mul_le_mul_of_nonneg_right (le_trans he3 (by linarith : (n : ℚ) - 2 ≤ (n : ℚ) - 1)) (by linarith : (0 : ℚ) ≤ (L : ℚ) - 1)]
    have hge : 0 ≤ npRound (linspaceVal L n e) := npRound_nonneg _ v0
    have hle : npRound (linspaceVal L n e) ≤ (L : ℤ) - 1 := npRound_le_of_le_int _ _ v1
    constructor
    · exact hge
    · omega

theorem adjust_pitch_length_formula (x : List ℚ) (st : ℤ) (h : st ≠ 0) :
    (adjust_pitch x st).length = (npRound ((x.length : ℚ) * tuningRatio st) - 1).toNat := by
  unfold adjust_pitch pitchIndices
  rw [if_neg h, if_neg h, List.length_map, List.length_map, List.length_range]

theorem npRound_of_sub_lt_half (q : ℚ) (m : ℤ) (h1 : ⌊q⌋ = m) (h2 : q - (m : ℚ) < 1 / 2) :
    npRound q = m := by
  unfold npRound
  rw [h1, if_pos h2]

/-- Claim C10: for every non-empty input buffer and every integer semitone
offset (tabulated, extrapolated, or large positive), the target sample count
`n` is never negative, and every rounded nearest-neighbour index read by
`adjust_pitch` lies within `[0, len(x) - 1]`, so the lookup never indexes out
of bounds and the operation is total. -/
theorem adjust_pitch_indices_safe (x : List ℚ) (st : ℤ) (hx : x ≠ []) :
    0 ≤ npRound ((x.length : ℚ) * tuningRatio st) ∧
    ∀ i ∈ pitchIndices x.length st, 0 ≤ i ∧ i.toNat < x.length := by
  have hL : 1 ≤ x.length := List.length_pos.mpr hx
  constructor
  · exact npRound_nonneg _ (mul_nonneg (by positivity) (le_of_lt (tuningRatio_pos st)))
  · exact pitchIndices_mem_bounds x.length st hL

/-- Witness for C10 at the concrete input x = [1, 2, 3], st = -1. -/
theorem adjust_pitch_indices_safe_witness :
    0 ≤ npRound ((([1, 2, 3] : List ℚ).length : ℚ) * tuningRatio (-1)) ∧
    ∀ i ∈ pitchIndices ([1, 2, 3] : List ℚ).length (-1),
      0 ≤ i ∧ i.toNat < ([1, 2, 3] : List ℚ).length :=
  adjust_pitch_indices_safe [1, 2, 3] (-1) (by simp)

/-- Claim C1 (code bug evaluation): on a 4-sample buffer with st = -1 the
rounded target length is `round(4 × ratio(-1)) = round(4.22610708412012) = 4`,
yet `adjust_pitch` returns only 3 samples, because the list comprehension
runs over `range(n-1)` after computing `n = int(np.round(len(x) * t))`. -/
theorem adjust_pitch_length_off_by_one :
    npRound ((4 : ℚ) * tuningRatio (-1)) = 4 ∧
    (adjust_pitch [0, 0, 0, 0] (-1)).length = 3 := by
  have ht : tuningRatio (-1) = 1.05652677103003 := by
    norm_num [tuningRatio, negativeTuningRatios]
  have hn : npRound ((4 : ℚ) * tuningRatio (-1)) = 4 := by
    rw [ht]
    apply npRound_of_sub_lt_half
    · norm_num
    · norm_num
  refine ⟨hn, ?_⟩
  rw [adjust_pitch_length_formula _ _ (by norm_num)]
  have hlen : ((([0, 0, 0, 0] : List ℚ).length : ℕ) : ℚ) = (4 : ℚ) := by norm_num
  rw [hlen, hn]
  rfl

/-- `zero_order_hold` from `core.py` lines 163-169 (`pitcher.py` lines
102-105): `np.repeat(y, zoh_multiplier)` repeats each sample that many
consecutive times.  The trailing `.astype(np.float32)` is the identity in
this exact-rational model of the sample values. -/
def zero_order_hold (y : List ℚ) (zoh_multiplier : ℕ) : List ℚ :=
  (y.map (List.replicate zoh_multiplier)).flatten

theorem zero_order_hold_cons (a : ℚ) (ys : List ℚ) (k : ℕ) :
    zero_order_hold (a :: ys) k = List.replicate k a ++ zero_order_hold ys k := by
  simp [zero_order_hold]

theorem zero_order_hold_length (y : List ℚ) (k : ℕ) :
    (zero_order_hold y k).length = y.length * k := by
  induction y with
  | nil => simp [zero_order_hold]
  | cons a ys ih =>
    rw [zero_order_hold_cons, List.length_append, List.length_replicate, ih]
    simp
    ring

theorem zero_order_hold_getD (y : List ℚ) (k : ℕ) (i j : ℕ) (hi : i < y.length) (hj : j < k) :
    (zero_order_hold y k).getD (i * k + j) 0 = y.getD i 0 := by
  induction y generalizing i with
  | nil => simp at hi
  | cons a ys ih =>
    rw [zero_order_hold_cons]
    cases i with
    | zero =>
      have hlt : 0 * k + j < (List.replicate k a).length := by
        simpa using hj
      rw [List.getD_append _ _ _ _ hlt, List.getD_eq_getElem _ _ hlt]
      simp
    | succ i' =>
      have hpos : (i' + 1) * k + j = (List.replicate k a).length + (i' * k + j) := by
        simp only [List.length_replicate]
        ring
      rw [hpos, List.getD_append_right _ _ _ _ (Nat.le_add_right _ _)]
      simp only [List.length_replicate, Nat.add_sub_cancel_left, List.getD_cons_succ]
      exact ih i' (by simpa using hi)

/-- Claim C5: zero-order hold with multiplier k ≥ 1 yields a buffer of length
exactly `len(y) × k` in which positions `i·k .. i·k+k-1` all hold sample
`y[i]` (each sample repeated k consecutive times, order preserved). -/
theorem zero_order_hold_spec (y : List ℚ) (k : ℕ) (_hk : 1 ≤ k) :
    (zero_order_hold y k).length = y.length * k ∧
    ∀ i < y.length, ∀ j < k, (zero_order_hold y k).getD (i * k + j) 0 = y.getD i 0 := by
  refine ⟨zero_order_hold_length y k, ?_⟩
  intro i hi j hj
  exact zero_order_hold_getD y k i j hi hj

/-- Witness for C5 at the concrete input y = [5, 7], k = 3. -/
theorem zero_order_hold_spec_witness :
    (zero_order_hold [5, 7] 3).length = ([5, 7] : List ℚ).length * 3 ∧
    ∀ i < ([5, 7] : List ℚ).length, ∀ j < 3,
      (zero_order_hold [5, 7] 3).getD (i * 3 + j) 0 = ([5, 7] : List ℚ).getD i 0 :=
  zero_order_hold_spec [5, 7] 3 (by norm_num)

/-- Helper for the nearest-level search: `nearestAux v s rest` is the pair
(index, distance) of the entry of `s :: rest` nearest to `v` in absolute
distance, with equidistant ties resolved to the lower index. -/
def nearestAux (v s : ℚ) : List ℚ → ℕ × ℚ
  | [] => (0, |v - s|)
  | t :: rest =>
    if (nearestAux v t rest).2 < |v - s| then
      ((nearestAux v t rest).1 + 1, (nearestAux v t rest).2)
    else (0, |v - s|)

theorem nearestAux_dist (v s : ℚ) (rest : List ℚ) :
    (nearestAux v s rest).2 = |v - (s :: rest).getD (nearestAux v s rest).1 0| := by
  induction rest generalizing s with
  | nil => simp [nearestAux]
  | cons t r ih =>
    unfold nearestAux
    by_cases h : (nearestAux v t r).2 < |v - s|
    · rw [if_pos h]
      simp only [List.getD_cons_succ]
      exact ih t
    · rw [if_neg h]
      simp

theorem nearestAux_lt_length (v s : ℚ) (rest : List ℚ) :
    (nearestAux v s rest).1 < (s :: rest).length := by
  induction rest generalizing s with
  | nil => simp [nearestAux]
  | cons t r ih =>
    unfold nearestAux
    by_cases h : (nearestAux v t r).2 < |v - s|
    · rw [if_pos h]
      have h' := ih t
      simp only [List.length_cons] at h' ⊢
      omega
    · rw [if_neg h]
      simp

theorem nearestAux_min (v s : ℚ) (rest : List ℚ) :
    ∀ k < (s :: rest).length, (nearestAux v s rest).2 ≤ |v - (s :: rest).getD k 0| := by
  induction rest generalizing s with
  | nil =>
    intro k hk
    have hk0 : k = 0 := by simpa using Nat.lt_one_iff.mp (by simpa using hk)
    subst hk0
    simp [nearestAux]
  | cons t r ih =>
    intro k hk
    unfold nearestAux
    by_cases h : (nearestAux v t r).2 < |v - s|
    · rw [if_pos h]
      cases k with
      | zero => simpa using le_of_lt h
      | succ k' =>
        simp only [List.getD_cons_succ]
        exact ih t k' (by simpa using hk)
    · rw [if_neg h]
      push_neg at h
      cases k with
      | zero => simp
      | succ k' =>
        simp only [List.getD_cons_succ]
        exact le_trans h (ih t k' (by simpa using hk))

theorem nearestAux_tie_lower (v s : ℚ) (rest : List ℚ) :
    ∀ k < (nearestAux v s rest).1, (nearestAux v s rest).2 < |v - (s :: rest).getD k 0| := by
  induction rest generalizing s with
  | nil =>
    intro k hk
    simp [nearestAux] at hk
  | cons t r ih =>
    intro k hk
    unfold nearestAux at hk ⊢
    by_cases h : (nearestAux v t r).2 < |v - s|
    · rw [if_pos h] at hk ⊢
      cases k with
      | zero => simpa using h
      | succ k' =>
        simp only [List.getD_cons_succ]
        exact ih t k' (by simpa using hk)
    · rw [if_neg h] at hk
      simp at hk

/-- Index of the nearest level. Modelled from the spec: the external
`scipy.spatial.cKDTree(S[:, None]).query(x[:, None], 1)[1]` one-nearest-
neighbour query of `nearest_values` (`core.py` lines 172-176) is modelled by
its contract — index of the level nearest in absolute distance, equidistant
ties to the lower index (spec §4.2: "Ties resolve to the lower index"). -/
def nearestIdx (v : ℚ) (S : List ℚ) : ℕ :=
  match S with
  | [] => 0
  | s :: rest => (nearestAux v s rest).1

/-- `nearest_values` from `core.py` lines 172-176: one nearest-level index
per input sample. -/
def nearest_values (x S : List ℚ) : List ℕ :=
  x.map fun v => nearestIdx v S

/-- `q` from `core.py` lines 179-187: `y = nearest_values(x, S)` followed by
`S.flat[y].reshape(x.shape)` — replace every sample by the level set entry at
its nearest index.  `bits` is used only for logging in the source. -/
def q (x S : List ℚ) (_bits : ℕ) : List ℚ :=
  (nearest_values x S).map fun j => S.getD j 0

theorem q_eq_map (x S : List ℚ) (bits : ℕ) :
    q x S bits = x.map fun v => S.getD (nearestIdx v S) 0 := by
  unfold q nearest_values
  rw [List.map_map]
  rfl

theorem nearestIdx_lt_length (v : ℚ) (S : List ℚ) (hS : S ≠ []) :
    nearestIdx v S < S.length := by
  cases S with
  | nil => simp at hS
  | cons s rest => exact nearestAux_lt_length v s rest

theorem nearestIdx_min (v : ℚ) (S : List ℚ) (hS : S ≠ []) :
    ∀ k < S.length, |v - S.getD (nearestIdx v S) 0| ≤ |v - S.getD k 0| := by
  cases S with
  | nil => simp at hS
  | cons s rest =>
    intro k hk
    have h := nearestAux_min v s rest k hk
    rw [nearestAux_dist v s rest] at h
    exact h

theorem nearestIdx_tie (v : ℚ) (S : List ℚ) :
    ∀ k < S.length, |v - S.getD k 0| = |v - S.getD (nearestIdx v S) 0| →
      nearestIdx v S ≤ k := by
  cases S with
  | nil =>
    intro k hk
    simp at hk
  | cons s rest =>
    intro k hk heq
    by_contra hgt
    push_neg at hgt
    have h := nearestAux_tie_lower v s rest k hgt
    rw [nearestAux_dist v s rest] at h
    have hidx : nearestIdx v (s :: rest) = (nearestAux v s rest).1 := rfl
    rw [← hidx] at h
    rw [heq] at h
    exact lt_irrefl _ h

theorem nearestIdx_getD_mem (v : ℚ) (S : List ℚ) (hS : S ≠ []) :
    S.getD (nearestIdx v S) 0 ∈ S := by
  rw [List.getD_eq_getElem _ _ (nearestIdx_lt_length v S hS)]
  exact List.getElem_mem _

theorem nearestIdx_getD_self (w : ℚ) (S : List ℚ) (hw : w ∈ S) :
    S.getD (nearestIdx w S) 0 = w := by
  have hS : S ≠ [] := List.ne_nil_of_mem hw
  obtain ⟨k, hk, hkw⟩ := List.getElem_of_mem hw
  have hkD : S.getD k 0 = w := by rw [List.getD_eq_getElem _ _ hk, hkw]
  have hmin := nearestIdx_min w S hS k hk
  rw [hkD] at hmin
  have hz : |w - S.getD (nearestIdx w S) 0| ≤ 0 := by simpa using hmin
  have h0 : w - S.getD (nearestIdx w S) 0 = 0 :=
    abs_eq_zero.mp (le_antisymm hz (abs_nonneg _))
  linarith

theorem getD_map_lt (f : ℚ → ℚ) (x : List ℚ) (i : ℕ) (hi : i < x.length) :
    (x.map f).getD i 0 = f (x.getD i 0) := by
  rw [List.getD_eq_getElem _ _ (by simpa using hi), List.getElem_map,
    List.getD_eq_getElem _ _ hi]

/-- Claim C6: for every input buffer and every non-empty quantization level
set, `q` keeps the length/shape, every output value is a member of the level
set, each output value is nearest to its input sample in absolute distance,
and equidistant ties resolve to the lower-index level. -/
theorem q_nearest_spec (x S : List ℚ) (bits : ℕ) (hS : S ≠ []) :
    (q x S bits).length = x.length ∧
    ∀ i < x.length,
      (q x S bits).getD i 0 ∈ S ∧
      (∀ k < S.length,
        |x.getD i 0 - (q x S bits).getD i 0| ≤ |x.getD i 0 - S.getD k 0|) ∧
      (∀ k < S.length,
        |x.getD i 0 - S.getD k 0| = |x.getD i 0 - (q x S bits).getD i 0| →
          nearestIdx (x.getD i 0) S ≤ k) := by
  rw [q_eq_map]
  refine ⟨by rw [List.length_map], ?_⟩
  intro i hi
  rw [getD_map_lt _ _ _ hi]
  exact ⟨nearestIdx_getD_mem _ S hS,
    fun k hk => nearestIdx_min _ S hS k hk,
    fun k hk heq => nearestIdx_tie _ S k hk heq⟩

/-- Witness for C6 at x = [3/10], S = [0, 1], bits = 12 (sample 3/10 maps to
the nearer level 0, and is no farther from 0 than from level 1). -/
theorem q_nearest_spec_witness :
    (q [(3 : ℚ) / 10] [0, 1] 12).getD 0 0 ∈ ([0, 1] : List ℚ) ∧
    |([(3 : ℚ) / 10] : List ℚ).getD 0 0 - (q [(3 : ℚ) / 10] [0, 1] 12).getD 0 0| ≤
      |([(3 : ℚ) / 10] : List ℚ).getD 0 0 - ([0, 1] : List ℚ).getD 1 0| := by
  have h := q_nearest_spec [(3 : ℚ) / 10] [0, 1] 12 (by simp)
  have h0 := h.2 0 (by norm_num)
  exact ⟨h0.1, h0.2.1 1 (by norm_num)⟩

/-- Claim C7: quantization is idempotent — re-quantizing `q x S bits` with
the same level set returns it unchanged. -/
theorem q_idempotent (x S : List ℚ) (bits : ℕ) :
    q (q x S bits) S bits = q x S bits := by
  rw [q_eq_map, q_eq_map, List.map_map]
  apply List.map_congr_left
  intro v _
  show S.getD (nearestIdx (S.getD (nearestIdx v S) 0) S) 0 = S.getD (nearestIdx v S) 0
  by_cases hS : S = []
  · subst hS
    simp
  · exact nearestIdx_getD_self _ S (nearestIdx_getD_mem v S hS)

/-- `calc_quantize_function` from `core.py` lines 75-84 (the same arrays are
the module constants `S_MIDRISE`/`S_MIDTREAD` of `pitcher.py` lines 25-30):
with max amplitude `u = 1`, `N = 2 ** quantize_bits` levels and level
distance `delta_s = 2 * u / N`, the midrise set is
`-u + delta_s/2 + arange(N) * delta_s` and the midtread set is
`-u + arange(N) * delta_s`. -/
def calc_quantize_function (quantize_bits : ℕ) : List ℚ × List ℚ :=
  let u : ℚ := 1
  let quantization_levels : ℕ := 2 ^ quantize_bits
  let delta_s : ℚ := 2 * u / (quantization_levels : ℚ)
  let s_midrise := (List.range quantization_levels).map fun i : ℕ =>
    -u + delta_s / 2 + (i : ℚ) * delta_s
  let s_midtread := (List.range quantization_levels).map fun i : ℕ =>
    -u + (i : ℚ) * delta_s
  (s_midrise, s_midtread)

theorem calc_quantize_function_fst (bits : ℕ) :
    (calc_quantize_function bits).1 = (List.range (2 ^ bits)).map fun i : ℕ =>
      -1 + (2 * 1 / ((2 ^ bits : ℕ) : ℚ)) / 2 +
        (i : ℚ) * (2 * 1 / ((2 ^ bits : ℕ) : ℚ)) := rfl

theorem calc_quantize_function_snd (bits : ℕ) :
    (calc_quantize_function bits).2 = (List.range (2 ^ bits)).map fun i : ℕ =>
      -1 + (i : ℚ) * (2 * 1 / ((2 ^ bits : ℕ) : ℚ)) := rfl

theorem getD_range_map (f : ℕ → ℚ) (N i : ℕ) (hi : i < N) :
    ((List.range N).map f).getD i 0 = f i := by
  rw [List.getD_eq_getElem _ _ (by simpa using hi), List.getElem_map, List.getElem_range]

theorem level_in_range (bits i : ℕ) (a : ℚ) (hi : i < 2 ^ bits)
    (ha0 : 0 ≤ a) (ha : 2 * a ≤ 2 * 1 / ((2 ^ bits : ℕ) : ℚ)) :
    -1 ≤ -1 + a + (i : ℚ) * (2 * 1 / ((2 ^ bits : ℕ) : ℚ)) ∧
    -1 + a + (i : ℚ) * (2 * 1 / ((2 ^ bits : ℕ) : ℚ)) ≤ 1 := by
  have hNQ : (0 : ℚ) < ((2 ^ bits : ℕ) : ℚ) := by
    exact_mod_cast pow_pos (by norm_num : (0 : ℕ) < 2) bits
  have hΔ : (0 : ℚ) < 2 * 1 / ((2 ^ bits : ℕ) : ℚ) := by
    apply div_pos (by norm_num) hNQ
  have hΔN : (2 * 1 / ((2 ^ bits : ℕ) : ℚ)) * ((2 ^ bits : ℕ) : ℚ) = 2 := by
    field_simp
  have hiq : (i : ℚ) + 1 ≤ ((2 ^ bits : ℕ) : ℚ) := by exact_mod_cast hi
  constructor
  · nlinarith [mul_nonneg (Nat.cast_nonneg i : (0 : ℚ) ≤ (i : ℚ)) hΔ.le]
  · have hle : (i : ℚ) + 1 / 2 ≤ ((2 ^ bits : ℕ) : ℚ) := by linarith
    have h2 : (2 * 1 / ((2 ^ bits : ℕ) : ℚ)) * ((i : ℚ) + 1 / 2) ≤
        (2 * 1 / ((2 ^ bits : ℕ) : ℚ)) * ((2 ^ bits : ℕ) : ℚ) :=
      mul_le_mul_of_nonneg_left hle hΔ.le
    nlinarith [h2]

/-- Claim C8: each constructed level set (midrise and midtread) has exactly
`N = 2^bits` values, constant spacing `(2 × amplitude) / N = 2 / 2^bits`
between consecutive levels, is strictly increasing, and lies within the
symmetric amplitude range `[-1, 1]`. -/
theorem calc_quantize_function_spec (bits : ℕ) :
    ((calc_quantize_function bits).1.length = 2 ^ bits ∧
      (calc_quantize_function bits).2.length = 2 ^ bits) ∧
    (∀ i, i + 1 < 2 ^ bits →
      (calc_quantize_function bits).1.getD (i + 1) 0 -
        (calc_quantize_function bits).1.getD i 0 = 2 / (2 : ℚ) ^ bits ∧
      (calc_quantize_function bits).2.getD (i + 1) 0 -
        (calc_quantize_function bits).2.getD i 0 = 2 / (2 : ℚ) ^ bits) ∧
    (∀ i j, i < j → j < 2 ^ bits →
      (calc_quantize_function bits).1.getD i 0 < (calc_quantize_function bits).1.getD j 0 ∧
      (calc_quantize_function bits).2.getD i 0 < (calc_quantize_function bits).2.getD j 0) ∧
    (∀ w, w ∈ (calc_quantize_function bits).1 ∨ w ∈ (calc_quantize_function bits).2 →
      -1 ≤ w ∧ w ≤ 1) := by
  have hcast : ((2 ^ bits : ℕ) : ℚ) = (2 : ℚ) ^ bits := by push_cast; ring
  have hNQ : (0 : ℚ) < ((2 ^ bits : ℕ) : ℚ) := by
    exact_mod_cast pow_pos (by norm_num : (0 : ℕ) < 2) bits
  have hΔ : (0 : ℚ) < 2 * 1 / ((2 ^ bits : ℕ) : ℚ) := div_pos (by norm_num) hNQ
  refine ⟨⟨?_, ?_⟩, ?_, ?_, ?_⟩
  · rw [calc_quantize_function_fst, List.length_map, List.length_range]
  · rw [calc_quantize_function_snd, List.length_map, List.length_range]
  · intro i hi1
    have hi0 : i < 2 ^ bits := by omega
    constructor
    · rw [calc_quantize_function_fst, getD_range_map _ _ _ hi1, getD_range_map _ _ _ hi0,
        hcast]
      push_cast
      ring
    · rw [calc_quantize_function_snd, getD_range_map _ _ _ hi1, getD_range_map _ _ _ hi0,
        hcast]
      push_cast
      ring
  · intro i j hij hj
    have hi : i < 2 ^ bits := lt_trans hij hj
    have hijq : (i : ℚ) < (j : ℚ) := by exact_mod_cast hij
    have hmul : (i : ℚ) * (2 * 1 / ((2 ^ bits : ℕ) : ℚ)) <
        (j : ℚ) * (2 * 1 / ((2 ^ bits : ℕ) : ℚ)) :=
      mul_lt_mul_of_pos_right hijq hΔ
    constructor
    · rw [calc_quantize_function_fst, getD_range_map _ _ _ hj, getD_range_map _ _ _ hi]
      linarith
    · rw [calc_quantize_function_snd, getD_range_map _ _ _ hj, getD_range_map _ _ _ hi]
      linarith
  · intro w hw
    rcases hw with hw | hw
    · rw [calc_quantize_function_fst] at hw
      rcases List.mem_map.mp hw with ⟨i, hi, rfl⟩
      rw [List.mem_range] at hi
      exact level_in_range bits i _ hi (by linarith) (by linarith)
    · rw [calc_quantize_function_snd] at hw
      rcases List.mem_map.mp hw with ⟨i, hi, rfl⟩
      rw [List.mem_range] at hi
      have h := level_in_range bits i 0 hi le_rfl (by linarith)
      constructor
      · linarith [h.1]
      · linarith [h.2]

/-- Witness for C8 at bits = 2: midtread spacing between levels 0 and 1 is
2/4, the midrise set increases from level 0 to level 1, and the first
midtread level lies within [-1, 1]. -/
theorem calc_quantize_function_spec_witness :
    ((calc_quantize_function 2).2.getD 1 0 - (calc_quantize_function 2).2.getD 0 0
      = 2 / (2 : ℚ) ^ 2) ∧
    ((calc_quantize_function 2).1.getD 0 0 < (calc_quantize_function 2).1.getD 1 0) ∧
    (-1 ≤ (calc_quantize_function 2).2.getD 0 0 ∧
      (calc_quantize_function 2).2.getD 0 0 ≤ 1) := by
  have h := calc_quantize_function_spec 2
  refine ⟨(h.2.1 0 (by norm_num)).2, (h.2.2.1 0 1 (by norm_num) (by norm_num)).1, ?_⟩
  have hmem : (calc_quantize_function 2).2.getD 0 0 ∈ (calc_quantize_function 2).2 := by
    rw [List.getD_eq_getElem _ _ (by rw [h.1.2]; norm_num)]
    exact List.getElem_mem _
  exact h.2.2.2 _ (Or.inr hmem)

/-- Length of the buffer produced by `scipy_resample` (`core.py` lines
149-160; `pitcher.py` lines 94-99): `seconds = len(y)/input_sr`,
`target_samples = int(seconds * (target_sr * factor)) + 1`, then
`resample(y, target_samples)` followed by `decimate(resampled, factor)`.
Library contracts used: `scipy.signal.resample(y, num)` returns exactly
`num` samples, and `scipy.signal.decimate` keeps every `factor`-th sample
starting at index 0, i.e. `ceil(n / factor)` samples.  Python `int()`
truncation equals the natural floor here because `seconds ≥ 0`. -/
def scipy_resample_length (L input_sr target_sr factor : ℕ) : ℕ :=
  (⌊(L : ℚ) / (input_sr : ℚ) * ((target_sr : ℚ) * (factor : ℚ))⌋₊ + 1 + factor - 1) / factor

/-- Claim C9: the resampler's output length is within one sample of
`round(duration × target_rate)` where `duration = input_length / input_rate`
(in fact it always equals `⌊duration × target_rate⌋ + 1`). -/
theorem scipy_resample_length_spec (L input_sr target_sr factor : ℕ)
    (hsr : 0 < input_sr) (hf : 0 < factor) :
    |(scipy_resample_length L input_sr target_sr factor : ℤ) -
      npRound ((L : ℚ) / (input_sr : ℚ) * (target_sr : ℚ))| ≤ 1 := by
  have hd0 : (0 : ℚ) ≤ (L : ℚ) / (input_sr : ℚ) * (target_sr : ℚ) := by positivity
  have hfQ : ((factor : ℕ) : ℚ) ≠ 0 := Nat.cast_ne_zero.mpr (by omega)
  have hstep : scipy_resample_length L input_sr target_sr factor =
      ⌊(L : ℚ) / (input_sr : ℚ) * (target_sr : ℚ)⌋₊ + 1 := by
    unfold scipy_resample_length
    have harg : (L : ℚ) / (input_sr : ℚ) * ((target_sr : ℚ) * (factor : ℚ)) =
        ((L : ℚ) / (input_sr : ℚ) * (target_sr : ℚ)) * (factor : ℚ) := by ring
    rw [harg]
    have hfloor : ⌊((L : ℚ) / (input_sr : ℚ) * (target_sr : ℚ)) * (factor : ℚ)⌋₊ / factor =
        ⌊(L : ℚ) / (input_sr : ℚ) * (target_sr : ℚ)⌋₊ := by
      rw [← Nat.floor_div_nat (((L : ℚ) / (input_sr : ℚ) * (target_sr : ℚ)) * (factor : ℚ)) factor,
        mul_div_assoc, div_self hfQ, mul_one]
    have hshift : ⌊((L : ℚ) / (input_sr : ℚ) * (target_sr : ℚ)) * (factor : ℚ)⌋₊ + 1 + factor - 1 =
        ⌊((L : ℚ) / (input_sr : ℚ) * (target_sr : ℚ)) * (factor : ℚ)⌋₊ + factor := by omega
    rw [hshift, Nat.add_div_right _ hf, hfloor]
  rw [hstep]
  have hnf : ((⌊(L : ℚ) / (input_sr : ℚ) * (target_sr : ℚ)⌋₊ : ℕ) : ℤ) =
      ⌊(L : ℚ) / (input_sr : ℚ) * (target_sr : ℚ)⌋ := Int.natCast_floor_eq_floor hd0
  rcases npRound_eq_floor_or_succ ((L : ℚ) / (input_sr : ℚ) * (target_sr : ℚ)) with h | h <;>
    rw [h, abs_le] <;> push_cast <;> rw [hnf] <;> constructor <;> omega

/-- Witness for C9 at L = 5, input_sr = 2, target_sr = 3, factor = 2. -/
theorem scipy_resample_length_spec_witness :
    |(scipy_resample_length 5 2 3 2 : ℤ) -
      npRound (((5 : ℕ) : ℚ) / ((2 : ℕ) : ℚ) * ((3 : ℕ) : ℚ))| ≤ 1 :=
  scipy_resample_length_spec 5 2 3 2 (by norm_num) (by norm_num)

/-- `OUTPUT_FILTER_TYPES` from `core.py` lines 37-41. -/
def OUTPUT_FILTER_TYPES : List String := ["lp1", "lp2", "moog"]

/-- Which output filter the `process_array` dispatch applies. -/
inductive OutputFilterAction
  | lp1Filter
  | lp2Filter
  | moogFilter
  | noFilter
deriving DecidableEq

/-- Output-filter dispatch of `process_array` (`core.py` lines 262-275):
with `output_filter` enabled, `lp1` for `OUTPUT_FILTER_TYPES[0]`, `lp2` for
`OUTPUT_FILTER_TYPES[1]`, and the Moog filter for anything else (there is no
error branch, so an unrecognized name reaches the final `else` and is given
the Moog filter); with `output_filter` disabled, skip. -/
def processArrayOutputFilter (output_filter : Bool) (output_filter_type : String) :
    OutputFilterAction :=
  if output_filter then
    if output_filter_type = OUTPUT_FILTER_TYPES.getD 0 "" then OutputFilterAction.lp1Filter
    else if output_filter_type = OUTPUT_FILTER_TYPES.getD 1 "" then OutputFilterAction.lp2Filter
    else OutputFilterAction.moogFilter
  else OutputFilterAction.noFilter

/-- Configuration validation of `output_filter_type` in `pitch` (`core.py`
lines 330-332), modelled as a function from the configured name to either a
configuration error or the name processing will use.  The source block
`if output_filter_type not in OUTPUT_FILTER_TYPES:` only issues two
`log.error` calls — its second message even claims a fallback to
`OUTPUT_FILTER_TYPES[0]`, but the block neither raises nor reassigns the
variable — so for every input, recognized or not, the run continues with the
original string unchanged. -/
def pitchValidateFilterType (output_filter_type : String) : Except String String :=
  Except.ok output_filter_type

/-- Claim C2 (code-bug evaluation): for the unrecognized configured name
"bogus" (with output filtering enabled), configuration validation does not
fail — `pitch` proceeds into processing carrying the invalid name — and the
mid-pipeline dispatch then applies the Moog filter to the buffer, despite
the source's own log message claiming a fallback to lp1. -/
theorem invalid_filter_type_not_rejected :
    "bogus" ∉ OUTPUT_FILTER_TYPES ∧
    pitchValidateFilterType "bogus" = Except.ok "bogus" ∧
    processArrayOutputFilter true "bogus" = OutputFilterAction.moogFilter := by
  refine ⟨by simp [OUTPUT_FILTER_TYPES], rfl, ?_⟩
  simp [processArrayOutputFilter, OUTPUT_FILTER_TYPES]

/-- `np.hstack((y1.reshape(-1, 1), y2.reshape(-1, 1)))` from `pitch`
(`core.py` line 358): stacking two single-column arrays side by side
requires equal first dimensions — numpy raises `ValueError` otherwise,
modelled as `none`.  On equal lengths the rows pair the two processed
channels positionally, and the paired result is handed to the writer. -/
def hstackStereo (y1 y2 : List ℚ) : Option (List (ℚ × ℚ)) :=
  if y1.length = y2.length then some (y1.zip y2) else none

/-- Claim C3 counterexample: on hypothetically mismatched processed channel
lengths (1 vs 2) the recombination step fails (raises) instead of
reconciling to a common length. -/
theorem hstackStereo_mismatch_raises : hstackStereo [0] [0, 0] = none := by
  simp [hstackStereo]

/-- Claim C3 amended: the orchestrator performs no reconciliation —
recombination succeeds exactly when the two processed channels have equal
length (raising otherwise), and on success hands the writer the two channels
paired positionally, unchanged. -/
theorem hstackStereo_no_reconciliation (y1 y2 : List ℚ) :
    ((hstackStereo y1 y2).isSome ↔ y1.length = y2.length) ∧
    (y1.length = y2.length →
      hstackStereo y1 y2 = some (y1.zip y2) ∧
      (y1.zip y2).map Prod.fst = y1 ∧ (y1.zip y2).map Prod.snd = y2) := by
  constructor
  · unfold hstackStereo
    by_cases h : y1.length = y2.length
    · rw [if_pos h]
      simpa using h
    · rw [if_neg h]
      simpa using h
  · intro h
    refine ⟨by simp [hstackStereo, h], ?_, ?_⟩
    · exact List.map_fst_zip y1 y2 (le_of_eq h)
    · exact List.map_snd_zip y1 y2 (le_of_eq h.symm)

/-- Witness for the amended C3 at y1 = [1, 2], y2 = [3, 4]. -/
theorem hstackStereo_no_reconciliation_witness :
    (hstackStereo [1, 2] [3, 4]).isSome ∧
    hstackStereo [1, 2] [3, 4] = some [(1, 3), (2, 4)] := by
  have h := hstackStereo_no_reconciliation [(1 : ℚ), 2] [3, 4]
  have hlen : ([1, 2] : List ℚ).length = ([3, 4] : List ℚ).length := by simp
  refine ⟨h.1.mpr hlen, ?_⟩
  have h2 := (h.2 hlen).1
  simpa using h2

/-- Time-stretch stage of `process_array` (`core.py` lines 234-249).  The
external collaborator `librosa.effects.time_stretch` is abstracted as the
function argument `stretch : (buffer, rate) ↦ stretched buffer`;
`resampledLen` is the length of the pre-pitch buffer `resampled`.  The
branches follow the source: device-native pass-through when
`custom_time_stretch == 1.0 and time_stretch == True`; a stretch by
`rate = len(pitched)/len(resampled)` when `custom_time_stretch == 0.0 or
time_stretch == False`; otherwise that stretch followed by a second stretch
by `custom_time_stretch`. -/
def timeStretchStage (stretch : List ℚ → ℚ → List ℚ) (resampledLen : ℕ)
    (pitched : List ℚ) (custom_time_stretch : ℚ) (time_stretch : Bool) : List ℚ :=
  if custom_time_stretch = 1 ∧ time_stretch = true then pitched
  else if custom_time_stretch = 0 ∨ time_stretch = false then
    stretch pitched ((pitched.length : ℚ) / (resampledLen : ℚ))
  else
    stretch (stretch pitched ((pitched.length : ℚ) / (resampledLen : ℚ)))
      custom_time_stretch

/-- Claim C4 counterexample: disabling the stage via `time_stretch = False`
is not a pass-through — exhibited with a collaborator returning `[]`, the
stage hands the pitched buffer to the collaborator and returns its output
instead of the buffer. -/
theorem time_stretch_disabled_not_passthrough :
    timeStretchStage (fun _ _ => []) 4 [1, 2, 3] 1 false ≠ [1, 2, 3] := by
  unfold timeStretchStage
  rw [if_neg (by simp), if_pos (by simp)]
  simp

/-- Claim C4 amended: the stage is a pure pass-through exactly in the
device-native default configuration (`time_stretch = True` with
`custom_time_stretch = 1.0`); with `time_stretch = False` the pitched buffer
is instead handed to the external time-stretcher with rate
`len(pitched)/len(resampled)` (stretching back toward the pre-pitch
length). -/
theorem timeStretchStage_default_and_disabled (stretch : List ℚ → ℚ → List ℚ)
    (resampledLen : ℕ) (pitched : List ℚ) (cts : ℚ) :
    timeStretchStage stretch resampledLen pitched 1 true = pitched ∧
    timeStretchStage stretch resampledLen pitched cts false =
      stretch pitched ((pitched.length : ℚ) / (resampledLen : ℚ)) := by
  constructor
  · unfold timeStretchStage
    rw [if_pos ⟨rfl, rfl⟩]
  · unfold timeStretchStage
    rw [if_neg (by simp), if_pos (by simp)]
